import Mathlib

/-!
Shallow embedding of the `gogo` zip package (`package zip`: `Download`,
`Archive`, `createArchive`, `Unarchive`) together with the Go standard
library path functions it uses (`path/filepath` and `strings` on a Unix
host, where `filepath.Separator` is the forward slash and
`filepath.ToSlash` is the identity).

Go strings are modelled as `List Char`; byte contents of files as
`List Nat`.  Filesystem state and I/O failures are modelled by explicit
environments (oracles saying which calls fail), and the zip container is
modelled as the list of entries written to it, holding the decompressed
byte content of each file entry together with its compression method
(the `archive/zip` writer compresses on write and its reader decompresses
on read, so entry content round-trips through the container).
-/

namespace Gogo

/-- Go strings, modelled as lists of characters. -/
abbrev GoStr := List Char

/-- Literal helper: the character list of a Lean string literal. -/
def gs (s : String) : GoStr := s.data

/-- Error taxonomy of the specification: `InvalidArgument`, `NotFound`,
`IOError`, `NetworkError`. Concrete Go error values (`fmt.Errorf`,
`*os.PathError`, `*url.Error`, ...) are mapped onto this taxonomy. -/
inductive Err where
  | invalidArgument
  | notFound
  | ioError
  | networkError
deriving DecidableEq, Inhabited

/-! ## Go standard library: `strings` and `path/filepath` (Unix rules) -/

/-- `strings.Split(s, "/")` restricted to the single-character separator
used by the code: splits on `'/'`, keeping empty fields. -/
def splitSlash : List Char → List (List Char)
  | [] => [[]]
  | c :: rest =>
    let r := splitSlash rest
    if c = '/' then [] :: r else (c :: r.headI) :: r.tail

/-- `strings.Join(elems, "/")`: concatenate with `'/'` between fields. -/
def joinSlash : List GoStr → GoStr
  | [] => []
  | [a] => a
  | a :: b :: rest => a ++ '/' :: joinSlash (b :: rest)

/-- One pass of the lexical processing inside `filepath.Clean`: drop empty
and `"."` elements, resolve `".."` against the output stack (`out` is kept
reversed). When `rooted`, a `".."` at the root is dropped; otherwise an
unmatched `".."` is kept. -/
def cleanWork (rooted : Bool) (out : List GoStr) : List GoStr → List GoStr
  | [] => out.reverse
  | c :: rest =>
    if c = [] ∨ c = ['.'] then cleanWork rooted out rest
    else if c = ['.', '.'] then
      match out with
      | [] => if rooted then cleanWork rooted [] rest
              else cleanWork rooted [['.', '.']] rest
      | top :: rem =>
        if top = ['.', '.'] then cleanWork rooted (c :: top :: rem) rest
        else cleanWork rooted rem rest
    else cleanWork rooted (c :: out) rest

/-- `filepath.Clean` on a Unix host, computed component-wise: shortest
lexically equivalent path (Go `path/filepath` documentation). -/
def clean (s : GoStr) : GoStr :=
  match s with
  | [] => ['.']
  | c :: rest =>
    let rooted := c = '/'
    let comps := cleanWork rooted [] (splitSlash (c :: rest))
    let body := joinSlash comps
    if rooted then '/' :: body
    else if body = [] then ['.']
    else body

/-- `filepath.Join` on a Unix host: drop leading empty elements, join the
remaining elements (empties included) with `'/'`, and `Clean` the result;
all elements empty gives the empty string. -/
def goJoin : List GoStr → GoStr
  | [] => []
  | e :: rest => if e = [] then goJoin rest else clean (joinSlash (e :: rest))

/-- `strings.TrimPrefix(s, p)`: remove the leading `p` when present. -/
def trimPfx (s p : GoStr) : GoStr :=
  if p.isPrefixOf s then s.drop p.length else s

/-- Trailing separators removed, as done at the start of `filepath.Base`. -/
def dropTrailingSlashes (s : GoStr) : GoStr :=
  (s.reverse.dropWhile (fun c => c = '/')).reverse

/-- The suffix after the last `'/'` (the whole string when there is none). -/
def afterLastSlash (s : GoStr) : GoStr :=
  (s.reverse.takeWhile (fun c => c ≠ '/')).reverse

/-- `filepath.Base` on a Unix host: `"."` for the empty string, `"/"` for a
string of separators, otherwise the last element after removing trailing
separators. -/
def goBase (s : GoStr) : GoStr :=
  if s = [] then ['.']
  else
    let s1 := dropTrailingSlashes s
    if s1 = [] then ['/']
    else afterLastSlash s1

/-- Everything up to (and including) the last `'/'`, empty when none:
the unfinished directory part consumed by `filepath.Dir`. -/
def uptoLastSlash (s : GoStr) : GoStr :=
  (s.reverse.dropWhile (fun c => c ≠ '/')).reverse

/-- `filepath.Dir` on a Unix host: `Clean` of the path with the last
element removed. -/
def goDir (s : GoStr) : GoStr := clean (uptoLastSlash s)

/-! ## The source tree

A filesystem subtree as enumerated by `filepath.Walk`: files carry byte
content, directories carry a list of named children.  `filepath.Walk`
visits children in sorted name order; the model visits them in list
order, which coincides once the child list is written down sorted (none
of the verified properties depend on sibling order). -/

mutual
inductive FSTree where
  | file (content : List Nat) : FSTree
  | dir (children : FSList) : FSTree

inductive FSList where
  | nil : FSList
  | cons (name : GoStr) (t : FSTree) (rest : FSList) : FSList
end

/-- `os.FileInfo.IsDir` of the node. -/
def FSTree.isDirB : FSTree → Bool
  | .file _ => false
  | .dir _ => true

/-! ## The zip container -/

/-- `zip.Deflate` (method 8); `0` is Store, the header default. -/
def zipDeflate : Nat := 8

/-- One record written into the container by `archive/zip`'s writer:
its `Name`, whether it is a directory marker, its compression `Method`,
and the (decompressed) byte content streamed into it.  Permission bits
are not modelled (the spec excludes permission fidelity). -/
structure ZipEntry where
  name : GoStr
  isDir : Bool
  method : Nat
  data : List Nat
deriving DecidableEq

/-- The file entries of a container, as `(name, content)` pairs. -/
def fileView (e : ZipEntry) : Option (GoStr × List Nat) :=
  if e.isDir then none else some (e.name, e.data)

/-! ## `createArchive`: the walk callback and the walk -/

/-- The name computation of the walk callback (`createArchive`,
`src/unnamed/part_003` lines 110-140): starting from the header name
`zip.FileInfoHeader` gives (`info.Name()`, the base name of the visited
path), the callback rewrites it when a base directory is set, skips the
entry whose rewritten name equals the base directory (`return nil` at
line 130, signalled here by `none`), and finally appends `"/"` to
directory names.  `filepath.ToSlash` is the identity on Unix. -/
def nameOf (baseDir path : GoStr) (isDir : Bool) : Option GoStr :=
  if baseDir ≠ [] then
    if baseDir = ['.'] then
      some (withSlash (goJoin [baseDir, path]) isDir)
    else
      let n := goJoin [trimPfx path (baseDir ++ ['/'])]
      if baseDir = n then none
      else some (withSlash n isDir)
  else some (withSlash (goBase path) isDir)
where
  /-- The trailing slash appended to directory entry names. -/
  withSlash (n : GoStr) (isDir : Bool) : GoStr :=
    if isDir then n ++ ['/'] else n

/-- I/O failure oracle for `createArchive`: which calls fail, keyed by the
argument the code passes them.  `statSource` is `os.Stat(source)` (line
93): `none` models "the source path does not exist" (`os.IsNotExist`),
`some t` returns the subtree rooted at `source`.  `visitErr` models a
failure surfaced at the top of the walk callback for a visited path (the
`err` argument from `filepath.Walk`, or `zip.FileInfoHeader` failing);
`openErr` is `os.Open(path)` (line 152); `copyErr` is `io.Copy` (line
159).  `createTargetErr` is `os.Create(target)` (line 82). -/
structure AEnv where
  createTargetErr : Option Err
  statSource : Option FSTree
  visitErr : GoStr → Option Err
  openErr : GoStr → Option Err
  copyErr : GoStr → Option Err

mutual
/-- `filepath.Walk(path, walkFn)` over the modelled subtree, running the
callback of `createArchive` at every node: returns the entries written to
the container and the error the walk finished with (`none` on success).
A non-`nil` error returned by the callback aborts the walk at once; a
directory whose entry is skipped is still descended into (the callback
returns `nil` for it). -/
def walkA (env : AEnv) (baseDir path : GoStr) : FSTree → List ZipEntry × Option Err
  | .file content =>
    match env.visitErr path with
    | some e => ([], some e)
    | none =>
      match nameOf baseDir path false with
      | none => ([], none)
      | some n =>
        match env.openErr path with
        | some e => ([⟨n, false, zipDeflate, []⟩], some e)
        | none =>
          match env.copyErr path with
          | some e => ([⟨n, false, zipDeflate, []⟩], some e)
          | none => ([⟨n, false, zipDeflate, content⟩], none)
  | .dir children =>
    match env.visitErr path with
    | some e => ([], some e)
    | none =>
      match nameOf baseDir path true with
      | none => walkList env baseDir path children
      | some n =>
        let (es, r) := walkList env baseDir path children
        (⟨n, true, 0, []⟩ :: es, r)

/-- The walk over a directory's children, in order: each child is visited
at `filepath.Join(path, name)`; the first error aborts the remainder. -/
def walkList (env : AEnv) (baseDir path : GoStr) : FSList → List ZipEntry × Option Err
  | .nil => ([], none)
  | .cons nm t rest =>
    let (es, r) := walkA env baseDir (goJoin [path, nm]) t
    match r with
    | some e => (es, some e)
    | none =>
      let (es2, r2) := walkList env baseDir path rest
      (es ++ es2, r2)
end

/-- The observable outcome of `createArchive`/`Archive`: the value the
function returns, the container file at `target` (`none` when it was
never created, `some entries` when it was, holding the flushed entries —
the deferred `zipfile.Close()`/`archive.Close()` run on every return
path), and the error `filepath.Walk` itself finished with, which line 105
discards. -/
structure AResult where
  result : Except Err Unit
  written : Option (List ZipEntry)
  walkErr : Option Err

/-- `createArchive(source, target)` (`src/unnamed/part_003` lines 79-164):
create the container at `target`; `os.Stat(source)`, returning its error
when the source does not exist; set `baseDir = filepath.Base(source)`
only when the source is a directory; walk the source, discarding the
walk's result; return `nil`. -/
def createArchive (env : AEnv) (source target : GoStr) : AResult :=
  match env.createTargetErr with
  | some e => ⟨.error e, none, none⟩
  | none =>
    match env.statSource with
    | none => ⟨.error .notFound, some [], none⟩
    | some t =>
      let baseDir := if t.isDirB then goBase source else []
      let (es, werr) := walkA env baseDir source t
      ⟨.ok (), some es, werr⟩

/-- `Archive(source, target)` (lines 57-76): reject an empty `target`,
then an empty `source`, before any filesystem call; otherwise delegate to
`createArchive`. The two `fmt.Errorf` values are the `InvalidArgument`
class of the spec's taxonomy. -/
def Archive (env : AEnv) (source target : GoStr) : AResult :=
  if target = [] then ⟨.error .invalidArgument, none, none⟩
  else if source = [] then ⟨.error .invalidArgument, none, none⟩
  else createArchive env source target

/-- An environment where the source exists and no I/O call fails. -/
def pureAEnv (t : FSTree) : AEnv :=
  ⟨none, some t, fun _ => none, fun _ => none, fun _ => none⟩

/-- The container produced by an error-free `createArchive` run on the
subtree `t` at `source`. -/
def archivePure (source : GoStr) (t : FSTree) : List ZipEntry :=
  ((createArchive (pureAEnv t) source (gs "out.zip")).written).getD []

/-! ## `Unarchive` -/

/-- Filesystem state touched by extraction: files written (path to byte
content, in creation order) and directories created. -/
structure FS where
  files : List (GoStr × List Nat)
  dirs : List GoStr
deriving DecidableEq

/-- The empty extraction target. -/
def FS.empty : FS := ⟨[], []⟩

/-- I/O failure oracle for `Unarchive`: `openEntryErr` is `file.Open()`
on the i-th container entry (line 180); `mkdirErr` is `os.MkdirAll` at a
path (lines 204, 208, 215) — the code ignores its result; `createErr` is
`os.Create` at the extraction path (line 219); `copyErr` is `io.Copy`
for the i-th entry (line 226). -/
structure UEnv where
  openEntryErr : Nat → Option Err
  mkdirErr : GoStr → Option Err
  createErr : GoStr → Option Err
  copyErr : Nat → Option Err

/-- `os.MkdirAll`: records the directory when the call succeeds; its
error, if any, is discarded by the caller (the code never checks it), so
the loop continues either way. -/
def applyMkdirAll (env : UEnv) (st : FS) (p : GoStr) : FS :=
  match env.mkdirErr p with
  | some _ => st
  | none => { st with dirs := st.dirs ++ [p] }

/-- The extraction path of an entry (lines 188-196): the target directory
(defaulting to `"./"` when `target` is empty) joined with the entry's
stored name — a plain `filepath.Join`, with no sanitization. -/
def extPath (target : GoStr) (e : ZipEntry) : GoStr :=
  goJoin [if target = [] then gs "./" else target, e.name]

/-- The extraction loop of `Unarchive` (lines 177-231), with `i` the
index of the current entry in the container.  For a directory marker:
`MkdirAll` the parent when missing, then `MkdirAll` the path (both
results ignored — the model folds the `os.Stat`-existence guard into the
idempotent `MkdirAll`).  For a file: `MkdirAll` the parent (ignored),
`os.Create` the path, `io.Copy` the decompressed content; those two
errors abort the whole loop.  Files already written stay in the state. -/
def unarchiveLoop (env : UEnv) (target : GoStr) :
    Nat → List ZipEntry → FS → FS × Except Err Unit
  | _, [], st => (st, .ok ())
  | i, e :: rest, st =>
    match env.openEntryErr i with
    | some er => (st, .error er)
    | none =>
      let path := extPath target e
      if e.isDir then
        let st1 := applyMkdirAll env st (goDir path)
        let st2 := applyMkdirAll env st1 path
        unarchiveLoop env target (i + 1) rest st2
      else
        let st1 := applyMkdirAll env st (goDir path)
        match env.createErr path with
        | some er => (st1, .error er)
        | none =>
          match env.copyErr i with
          | some er => ({ st1 with files := st1.files ++ [(path, [])] }, .error er)
          | none =>
            unarchiveLoop env target (i + 1) rest
              { st1 with files := st1.files ++ [(path, e.data)] }

/-- `Unarchive(source, target)` (lines 167-234) applied to the entry list
read from the source container (`zip.OpenReader` already succeeded),
extracting into an initially fresh target. -/
def Unarchive (env : UEnv) (entries : List ZipEntry) (target : GoStr) :
    FS × Except Err Unit :=
  unarchiveLoop env target 0 entries FS.empty

/-- An extraction environment where no I/O call fails. -/
def pureUEnv : UEnv :=
  ⟨fun _ => none, fun _ => none, fun _ => none, fun _ => none⟩

/-! ## `Download` -/

/-- ASCII letter. -/
def isAlphaChar (c : Char) : Bool :=
  ('a' ≤ c ∧ c ≤ 'z') ∨ ('A' ≤ c ∧ c ≤ 'Z')

/-- ASCII digit. -/
def isDigitChar (c : Char) : Bool := '0' ≤ c ∧ c ≤ '9'

/-- The scheme scanner of `net/url` (`getscheme`): a scheme is a letter
followed by letters, digits, `'+'`, `'-'`, `'.'`, terminated by `':'`.
`acc` holds the scanned scheme reversed; `none` means the URL has no
scheme (or `':'` appears first, which `url.Parse` rejects — both make
`ParseRequestURI` fail on non-rooted input). -/
def getSchemeAux (acc : GoStr) : GoStr → Option GoStr
  | [] => none
  | c :: rest =>
    if isAlphaChar c then getSchemeAux (c :: acc) rest
    else if isDigitChar c ∨ c = '+' ∨ c = '-' ∨ c = '.' then
      if acc = [] then none else getSchemeAux (c :: acc) rest
    else if c = ':' then
      if acc = [] then none else some acc.reverse
    else none

/-- The scheme of a URL, when it has one. -/
def getScheme (s : GoStr) : Option GoStr := getSchemeAux [] s

/-- ASCII lower-casing, as `url.Parse` applies to the scheme. -/
def lowerStr (s : GoStr) : GoStr :=
  s.map fun c => if 'A' ≤ c ∧ c ≤ 'Z' then Char.ofNat (c.toNat + 32) else c

/-- Whether `url.ParseRequestURI(source)` succeeds: the URL must be
absolute (have a scheme) or be a rooted path.  (Modelled from the
documented behaviour of `net/url` for inputs free of control characters
and spaces, which covers every input the claims use.) -/
def parseRequestURIOk (s : GoStr) : Bool :=
  (getScheme s).isSome || s.head? = some '/'

/-- Network/file oracle for `Download`: `getErr` is a transport failure
of `http.Get`, `body` the response body bytes (any status' body — the
code never checks the status code), `createErr` is `os.Create(target)`,
`copyErr` is `io.Copy`. -/
structure DEnv where
  getErr : Option Err
  body : List Nat
  createErr : Option Err
  copyErr : Option Err

/-- The outcome of `Download`: the returned value and the target file's
content (`none` when the file was never created). -/
structure DResult where
  result : Except Err Unit
  written : Option (List Nat)

/-- `Download(source, target)` (lines 24-54): `url.ParseRequestURI`
failure is returned at once (`InvalidArgument` in the spec's taxonomy);
then `http.Get` runs — a scheme other than `http`/`https` (including a
rooted path with no scheme) fails inside the HTTP client with
"unsupported protocol scheme", a transport-level `NetworkError`, still
before `os.Create(target)`; only then is the target file created and the
body copied into it. -/
def Download (env : DEnv) (source target : GoStr) : DResult :=
  if parseRequestURIOk source = false then ⟨.error .invalidArgument, none⟩
  else
    match (getScheme source).map lowerStr with
    | none => ⟨.error .networkError, none⟩
    | some sch =>
      if sch = gs "http" ∨ sch = gs "https" then
        match env.getErr with
        | some e => ⟨.error e, none⟩
        | none =>
          match env.createErr with
          | some e => ⟨.error e, none⟩
          | none =>
            match env.copyErr with
            | some e => ⟨.error e, some []⟩
            | none => ⟨.ok (), some env.body⟩
      else ⟨.error .networkError, none⟩

/-- A download environment where the network and filesystem cooperate. -/
def pureDEnv (body : List Nat) : DEnv := ⟨none, body, none, none⟩

/-! ## Validity of path components and trees

A "valid directory tree" (as the spec's round-trip property quantifies
over) is one whose entry names are ordinary, portable filenames: nonempty,
free of the separator, and not the special names `"."`/`".."`. -/

/-- A single valid path component. -/
def validComp (c : GoStr) : Prop :=
  c ≠ [] ∧ ('/' ∉ c) ∧ c ≠ ['.'] ∧ c ≠ ['.', '.']

instance : DecidablePred validComp := fun c => by
  unfold validComp; infer_instance

/-- Boolean form of `validComp`, convenient in hypotheses. -/
def validCompB (c : GoStr) : Bool := decide (validComp c)

theorem validCompB_iff {c : GoStr} : validCompB c = true ↔ validComp c := by
  simp [validCompB]

mutual
/-- Every name in the tree is a valid path component. -/
def validTreeB : FSTree → Bool
  | .file _ => true
  | .dir cs => validChildrenB cs

/-- Every name in the child list (and below) is a valid path component. -/
def validChildrenB : FSList → Bool
  | .nil => true
  | .cons n t rest => validCompB n && validTreeB t && validChildrenB rest
end

/-- No direct child of the root is a file whose name equals `s` (such a
file's computed archive name would collide with the base directory name
and be skipped by the root check, losing the file). -/
def noRootFileB (s : GoStr) : FSList → Bool
  | .nil => true
  | .cons n t rest => (if n = s then t.isDirB else true) && noRootFileB s rest

/-- A nonempty relative slash-separated path all of whose components are
valid. -/
def validRelPathB (p : GoStr) : Bool :=
  (!p.isEmpty) && (splitSlash p).all validCompB

/-! ## Characterisation of the walk on valid trees

For a source path that is a single valid component `s` (so `source`
equals its own base name), the walk visits the node with relative chain
`q` at path `joinSlash (s :: q)`, and the callback stores it under name
`joinSlash q` — the base-directory prefix is dropped by the
`TrimPrefix`/root-check logic, and the node whose computed name equals
`s` (the root, or a depth-one child named `s`) is skipped. -/

mutual
/-- The entries the error-free walk emits for the subtree at chain `q`. -/
def specEntries (s : GoStr) (q : List GoStr) : FSTree → List ZipEntry
  | .file c =>
    if q = [] ∨ q = [s] then []
    else [⟨joinSlash q, false, zipDeflate, c⟩]
  | .dir cs =>
    (if q = [] ∨ q = [s] then []
     else [⟨joinSlash q ++ ['/'], true, 0, []⟩]) ++ specList s q cs

/-- The entries emitted for a child list whose parent sits at chain `q`. -/
def specList (s : GoStr) (q : List GoStr) : FSList → List ZipEntry
  | .nil => []
  | .cons n t rest => specEntries s (q ++ [n]) t ++ specList s q rest
end

mutual
/-- The files of a subtree: relative component chain and byte content. -/
def filesOfTree : FSTree → List (List GoStr × List Nat)
  | .file c => [([], c)]
  | .dir cs => filesOfList cs

/-- The files below a child list, chains starting with the child name. -/
def filesOfList : FSList → List (List GoStr × List Nat)
  | .nil => []
  | .cons n t rest =>
    (filesOfTree t).map (fun rc => (n :: rc.1, rc.2)) ++ filesOfList rest
end

/-- Per-entry success condition of the extraction loop for the entry at
container index `k`: `file.Open` succeeds, and for a file entry so do
`os.Create` at its extraction path and `io.Copy`.  The directory-creation
calls (`os.MkdirAll`) do not appear: the code ignores their result. -/
def stepOk (env : UEnv) (target : GoStr) (k : Nat) (e : ZipEntry) : Prop :=
  env.openEntryErr k = none ∧
    (e.isDir = false →
      env.createErr (extPath target e) = none ∧ env.copyErr k = none)

/-- Every entry of the container passes `stepOk` at its index. -/
def allStepsOk (env : UEnv) (target : GoStr) (es : List ZipEntry) : Prop :=
  ∀ j e, es.get? j = some e → stepOk env target j e

/-! ## Concrete example data -/

/-- The bytes of `"hello"`. -/
def helloBytes : List Nat := [104, 101, 108, 108, 111]

/-- A single child: the file `b.txt` with content `"hello"`. -/
def exChildren : FSList := .cons (gs "b.txt") (.file helloBytes) .nil

/-- A directory containing the single file `b.txt` with content
`"hello"` — the tree of the spec's archiving scenario. -/
def exTree : FSTree := .dir exChildren

/-- A directory containing `b.txt` and `c.txt`. -/
def exTwoTree : FSTree :=
  .dir (.cons (gs "b.txt") (.file [1])
    (.cons (gs "c.txt") (.file [2]) .nil))

/-- Archiving `exTwoTree` at source `"a"` where `os.Open("a/b.txt")`
fails with an I/O error. -/
def envC4 : AEnv :=
  { createTargetErr := none
    statSource := some exTwoTree
    visitErr := fun _ => none
    openErr := fun p => if p = gs "a/b.txt" then some .ioError else none
    copyErr := fun _ => none }

/-- A target that can be created, over a source that does not exist. -/
def envC6 : AEnv :=
  ⟨none, none, fun _ => none, fun _ => none, fun _ => none⟩

/-- Extraction where `os.MkdirAll("t/d")` fails with an I/O error. -/
def envC8 : UEnv :=
  { pureUEnv with
    mkdirErr := fun p => if p = gs "t/d" then some .ioError else none }

/-- A directory-marker entry named `d/`. -/
def dirEntryD : ZipEntry := ⟨gs "d/", true, 0, []⟩

/-- A file entry whose stored name climbs out of the target. -/
def evilEntry : ZipEntry := ⟨gs "../evil.txt", false, zipDeflate, [42]⟩

/-! ## Lemmas about the modelled Go string functions -/

theorem joinSlash_cons (a : GoStr) {q : List GoStr} (hq : q ≠ []) :
    joinSlash (a :: q) = a ++ '/' :: joinSlash q := by
  cases q with
  | nil => exact absurd rfl hq
  | cons b t => rfl

theorem splitSlash_ne_nil (s : GoStr) : splitSlash s ≠ [] := by
  cases s with
  | nil => simp [splitSlash]
  | cons c rest => simp only [splitSlash]; split <;> simp

theorem splitSlash_no_slash {c : GoStr} (h : '/' ∉ c) : splitSlash c = [c] := by
  induction c with
  | nil => rfl
  | cons ch rest ih =>
    have hch : ch ≠ '/' := fun he => h (he ▸ List.mem_cons_self ch rest)
    have hrest : '/' ∉ rest := fun hm => h (List.mem_cons_of_mem ch hm)
    simp [splitSlash, ih hrest, hch]

theorem splitSlash_append {a : GoStr} (b : GoStr) (h : '/' ∉ a) :
    splitSlash (a ++ '/' :: b) = a :: splitSlash b := by
  induction a with
  | nil => simp [splitSlash]
  | cons ch rest ih =>
    have hch : ch ≠ '/' := fun he => h (he ▸ List.mem_cons_self ch rest)
    have hrest : '/' ∉ rest := fun hm => h (List.mem_cons_of_mem ch hm)
    simp [splitSlash, ih hrest, hch]

theorem splitSlash_joinSlash {q : List GoStr} (hq : q ≠ [])
    (h : ∀ c ∈ q, '/' ∉ c) : splitSlash (joinSlash q) = q := by
  induction q with
  | nil => exact absurd rfl hq
  | cons a rest ih =>
    cases rest with
    | nil => exact splitSlash_no_slash (h a (List.mem_cons_self a []))
    | cons b t =>
      rw [joinSlash_cons a (by simp)]
      rw [splitSlash_append _ (h a (List.mem_cons_self a _))]
      rw [ih (by simp) (fun c hc => h c (List.mem_cons_of_mem a hc))]

theorem joinSlash_splitSlash (s : GoStr) : joinSlash (splitSlash s) = s := by
  induction s with
  | nil => rfl
  | cons c rest ih =>
    simp only [splitSlash]
    by_cases hc : c = '/'
    · subst hc
      rw [if_pos rfl, joinSlash_cons [] (splitSlash_ne_nil rest),
        List.nil_append, ih]
    · rw [if_neg hc]
      cases h : splitSlash rest with
      | nil => exact absurd h (splitSlash_ne_nil rest)
      | cons g gsx =>
        rw [h] at ih
        cases gsx with
        | nil =>
          simp only [List.headI, List.tail]
          simp only [joinSlash] at ih ⊢
          rw [ih]
        | cons g2 t2 =>
          simp only [List.headI, List.tail]
          rw [joinSlash_cons (c :: g) (by simp),
            joinSlash_cons g (by simp)] at *
          rw [List.cons_append, ih]

theorem cleanWork_all_valid {l : List GoStr} (hv : ∀ c ∈ l, validComp c)
    (rooted : Bool) : ∀ out, cleanWork rooted out l = out.reverse ++ l := by
  induction l with
  | nil => intro out; simp [cleanWork]
  | cons c rest ih =>
    intro out
    obtain ⟨h1, _, h3, h4⟩ := hv c (List.mem_cons_self c rest)
    have hrest : ∀ x ∈ rest, validComp x :=
      fun x hx => hv x (List.mem_cons_of_mem c hx)
    have hg1 : ¬(c = [] ∨ c = ['.']) := by
      rintro (h | h)
      · exact h1 h
      · exact h3 h
    simp only [cleanWork, if_neg hg1, if_neg h4]
    rw [ih hrest (c :: out)]
    simp

theorem joinSlash_ne_nil {q : List GoStr} (hq : q ≠ [])
    (hv : ∀ c ∈ q, validComp c) : joinSlash q ≠ [] := by
  cases q with
  | nil => exact absurd rfl hq
  | cons a rest =>
    have ha : a ≠ [] := (hv a (List.mem_cons_self a rest)).1
    cases rest with
    | nil => exact ha
    | cons b t =>
      rw [joinSlash_cons a (by simp)]
      cases a with
      | nil => exact absurd rfl ha
      | cons x xs => simp

theorem joinSlash_head {q : List GoStr} (hq : q ≠ [])
    (hv : ∀ c ∈ q, validComp c) :
    ∀ ch, (joinSlash q).head? = some ch → ch ≠ '/' := by
  cases q with
  | nil => exact absurd rfl hq
  | cons a rest =>
    have ha : a ≠ [] := (hv a (List.mem_cons_self a rest)).1
    have hsl : '/' ∉ a := (hv a (List.mem_cons_self a rest)).2.1
    cases a with
    | nil => exact absurd rfl ha
    | cons x xs =>
      have hx : x ≠ '/' := fun he => hsl (he ▸ List.mem_cons_self x xs)
      intro ch hch
      cases rest with
      | nil => simp only [joinSlash, List.head?] at hch; exact (Option.some.inj hch) ▸ hx
      | cons b t =>
        rw [joinSlash_cons (x :: xs) (by simp)] at hch
        simp only [List.cons_append, List.head?] at hch
        exact (Option.some.inj hch) ▸ hx

theorem clean_joinSlash {q : List GoStr} (hq : q ≠ [])
    (hv : ∀ c ∈ q, validComp c) : clean (joinSlash q) = joinSlash q := by
  have hnil : joinSlash q ≠ [] := joinSlash_ne_nil hq hv
  obtain ⟨c, rest, hs⟩ : ∃ c rest, joinSlash q = c :: rest := by
    cases h : joinSlash q with
    | nil => exact absurd h hnil
    | cons c rest => exact ⟨c, rest, rfl⟩
  have hc : c ≠ '/' := joinSlash_head hq hv c (by rw [hs]; rfl)
  have hsplit : splitSlash (c :: rest) = q := by
    rw [← hs]; exact splitSlash_joinSlash hq (fun x hx => (hv x hx).2.1)
  rw [hs]
  simp only [clean, hsplit]
  rw [cleanWork_all_valid hv _ []]
  simp only [List.reverse_nil, List.nil_append]
  rw [if_neg (by simp [hc]), if_neg hnil, hs]

theorem trimPfx_append (p t : GoStr) : trimPfx (p ++ t) p = t := by
  unfold trimPfx
  rw [if_pos (List.isPrefixOf_iff_prefix.mpr (List.prefix_append p t))]
  exact List.drop_left p t

theorem trimPfx_slash_self (s : GoStr) : trimPfx s (s ++ ['/']) = s := by
  unfold trimPfx
  rw [if_neg]
  intro h
  have := List.IsPrefix.length_le (List.isPrefixOf_iff_prefix.mp h)
  simp at this

theorem goJoin_pair {p : GoStr} (n : GoStr) (hp : p ≠ []) :
    goJoin [p, n] = clean (p ++ '/' :: n) := by
  simp [goJoin, if_neg hp, joinSlash]

theorem joinSlash_append {q1 q2 : List GoStr} (h1 : q1 ≠ []) (h2 : q2 ≠ []) :
    joinSlash (q1 ++ q2) = joinSlash q1 ++ '/' :: joinSlash q2 := by
  induction q1 with
  | nil => exact absurd rfl h1
  | cons a rest ih =>
    cases rest with
    | nil =>
      rw [List.cons_append, List.nil_append, joinSlash_cons a h2]
      rfl
    | cons b t =>
      rw [List.cons_append, joinSlash_cons a (by simp),
        joinSlash_cons a (List.cons_ne_nil b t), ih (by simp)]
      simp

theorem joinSlash_eq_single {s : GoStr} {q : List GoStr} (hs : '/' ∉ s)
    (hq : q ≠ []) (hv : ∀ c ∈ q, validComp c) :
    s = joinSlash q ↔ q = [s] := by
  constructor
  · intro h
    cases q with
    | nil => exact absurd rfl hq
    | cons a rest =>
      cases rest with
      | nil => simp [joinSlash] at h; simp [h]
      | cons b t =>
        exfalso
        apply hs
        rw [h, joinSlash_cons a (by simp)]
        exact List.mem_append_right a (List.mem_cons_self '/' _)
  · intro h; subst h; rfl

theorem dropWhile_head_not {α : Type} (p : α → Bool) :
    ∀ (l : List α) {c : α} {t : List α}, l.dropWhile p = c :: t → p c = false := by
  intro l
  induction l with
  | nil => intro c t h; simp [List.dropWhile] at h
  | cons x xs ih =>
    intro c t h
    by_cases hx : p x
    · rw [List.dropWhile_cons_of_pos hx] at h; exact ih h
    · rw [List.dropWhile_cons_of_neg hx] at h
      obtain ⟨h1, _⟩ := List.cons.inj h
      rw [← h1]; exact Bool.of_not_eq_true hx

theorem takeWhile_all {α : Type} (p : α → Bool) :
    ∀ (l : List α), (∀ c ∈ l, p c = true) → l.takeWhile p = l := by
  intro l
  induction l with
  | nil => intro _; rfl
  | cons x xs ih =>
    intro h
    rw [List.takeWhile_cons_of_pos (h x (List.mem_cons_self x xs)),
      ih (fun c hc => h c (List.mem_cons_of_mem x hc))]

theorem goBase_single {s : GoStr} (hne : s ≠ []) (hsl : '/' ∉ s) :
    goBase s = s := by
  have hdrop : dropTrailingSlashes s = s := by
    unfold dropTrailingSlashes
    cases hr : s.reverse with
    | nil => rw [List.reverse_eq_nil_iff] at hr; exact absurd hr hne
    | cons c t =>
      have hc : c ∈ s := by
        have : c ∈ s.reverse := hr ▸ List.mem_cons_self c t
        exact List.mem_reverse.mp this
      rw [List.dropWhile_cons_of_neg
        (by simp only [decide_eq_true_eq]; intro he; rw [he] at hc; exact hsl hc)]
      rw [← hr, List.reverse_reverse]
  have htake : afterLastSlash s = s := by
    unfold afterLastSlash
    rw [takeWhile_all _ s.reverse (fun c hc => by
      simp only [decide_eq_true_eq]
      intro he
      rw [he] at hc
      exact hsl (List.mem_reverse.mp hc))]
    exact List.reverse_reverse s
  unfold goBase
  rw [if_neg hne]
  simp only [hdrop, if_neg hne, htake]

theorem goBase_ne_nil (s : GoStr) : goBase s ≠ [] := by
  unfold goBase
  by_cases h1 : s = []
  · simp [h1]
  rw [if_neg h1]
  by_cases h2 : dropTrailingSlashes s = []
  · simp [h2]
  rw [if_neg h2]
  unfold afterLastSlash
  intro hcontra
  rw [List.reverse_eq_nil_iff] at hcontra
  have hrev : (dropTrailingSlashes s).reverse ≠ [] := by
    simpa [List.reverse_eq_nil_iff] using h2
  obtain ⟨c, t, hct⟩ : ∃ c t, (dropTrailingSlashes s).reverse = c :: t := by
    cases h : (dropTrailingSlashes s).reverse with
    | nil => exact absurd h hrev
    | cons c t => exact ⟨c, t, rfl⟩
  have hcfalse : (fun x => decide (x = '/')) c = false := by
    apply dropWhile_head_not (fun x => decide (x = '/')) s.reverse
    unfold dropTrailingSlashes at hct
    rw [← hct, List.reverse_reverse]
  rw [hct, List.takeWhile_cons_of_pos] at hcontra
  · exact List.cons_ne_nil c _ hcontra
  · simpa using fun he => by simp [he] at hcfalse

/-! ## The walk callback on valid chains -/

/-- On a source that is a single valid component `s`, the callback's name
computation at the node with relative chain `q` (visited at path
`joinSlash (s :: q)`): skip when the chain is empty (the root) or a
single component equal to `s`; otherwise store under `joinSlash q`, with
a trailing slash for directories. -/
theorem nameOf_spec {s : GoStr} (hs1 : validComp s) (hs2 : s ≠ ['.'])
    {q : List GoStr} (hq : ∀ c ∈ q, validComp c) (isDir : Bool) :
    nameOf s (joinSlash (s :: q)) isDir =
      if q = [] ∨ q = [s] then none
      else some (if isDir then joinSlash q ++ ['/'] else joinSlash q) := by
  have hne : s ≠ [] := hs1.1
  have hsl : '/' ∉ s := hs1.2.1
  unfold nameOf
  rw [if_pos hne, if_neg hs2]
  cases hqq : q with
  | nil =>
    have hpath : joinSlash (s :: ([] : List GoStr)) = s := rfl
    rw [hpath, trimPfx_slash_self]
    have hjoin : goJoin [s] = s := by
      have : clean (joinSlash [s]) = joinSlash [s] :=
        clean_joinSlash (by simp) (by simpa using hs1)
      simpa [goJoin, hne, joinSlash] using this
    simp [hjoin]
  | cons q0 qrest =>
    rw [← hqq]
    have hqne : q ≠ [] := by rw [hqq]; simp
    have hpath : joinSlash (s :: q) = (s ++ ['/']) ++ joinSlash q := by
      rw [joinSlash_cons s hqne, List.append_cons s '/' (joinSlash q)]
    rw [hpath, trimPfx_append]
    have hjq : joinSlash q ≠ [] := joinSlash_ne_nil hqne hq
    have hjoin : goJoin [joinSlash q] = joinSlash q := by
      simpa [goJoin, hjq, joinSlash] using clean_joinSlash hqne hq
    rw [hjoin]
    by_cases hone : q = [s]
    · rw [if_pos (by rw [hone]; rfl), if_pos (Or.inr hone)]
    · rw [if_neg (fun h => hone ((joinSlash_eq_single hsl hqne hq).mp h)),
        if_neg (by simp [hqne, hone])]
      simp [nameOf.withSlash]

/-- The path `filepath.Walk` hands to the callback for a child named `nm`
of the node at chain `q`. -/
theorem childPath {s : GoStr} (hs1 : validComp s)
    {q : List GoStr} (hq : ∀ c ∈ q, validComp c)
    {nm : GoStr} (hnm : validComp nm) :
    goJoin [joinSlash (s :: q), nm] = joinSlash (s :: (q ++ [nm])) := by
  have hcons : ∀ c ∈ s :: q, validComp c := by
    intro c hc
    rcases List.mem_cons.mp hc with h | h
    · exact h ▸ hs1
    · exact hq c h
  have hall : ∀ c ∈ (s :: q) ++ [nm], validComp c := by
    intro c hc
    rcases List.mem_append.mp hc with h | h
    · exact hcons c h
    · rcases List.mem_singleton.mp h with rfl; exact hnm
  rw [goJoin_pair nm (joinSlash_ne_nil (by simp) hcons)]
  have happ : joinSlash ((s :: q) ++ [nm])
      = joinSlash (s :: q) ++ '/' :: nm := by
    rw [joinSlash_append (by simp) (by simp)]; rfl
  rw [← happ, clean_joinSlash (by simp) hall, List.cons_append]

mutual
/-- The error-free walk over a valid subtree at chain `q` produces
exactly the entries of `specEntries` and finishes without error. -/
theorem walkA_spec (t0 : FSTree) {s : GoStr} (hs1 : validComp s)
    (hs2 : s ≠ ['.']) (t : FSTree) (q : List GoStr)
    (hq : ∀ c ∈ q, validComp c) (hv : validTreeB t = true) :
    walkA (pureAEnv t0) s (joinSlash (s :: q)) t = (specEntries s q t, none) := by
  cases t with
  | file content =>
    simp only [walkA, pureAEnv]
    rw [nameOf_spec hs1 hs2 hq false]
    by_cases hc : q = [] ∨ q = [s]
    · rw [if_pos hc]; simp [specEntries, hc]
    · rw [if_neg hc]; simp [specEntries, hc]
  | dir cs =>
    have hrec := walkList_spec t0 hs1 hs2 cs q hq (by simpa [validTreeB] using hv)
    simp only [walkA, pureAEnv]
    rw [nameOf_spec hs1 hs2 hq true]
    by_cases hc : q = [] ∨ q = [s]
    · rw [if_pos hc]
      simp only [pureAEnv] at hrec
      simp [specEntries, hc, hrec]
    · rw [if_neg hc]
      simp only [pureAEnv] at hrec
      simp [specEntries, hc, hrec]

/-- The error-free walk over a valid child list of the node at chain `q`
produces exactly the entries of `specList` and finishes without error. -/
theorem walkList_spec (t0 : FSTree) {s : GoStr} (hs1 : validComp s)
    (hs2 : s ≠ ['.']) (cs : FSList) (q : List GoStr)
    (hq : ∀ c ∈ q, validComp c) (hv : validChildrenB cs = true) :
    walkList (pureAEnv t0) s (joinSlash (s :: q)) cs = (specList s q cs, none) := by
  cases cs with
  | nil => simp [walkList, specList]
  | cons n t rest =>
    rw [validChildrenB] at hv
    simp only [Bool.and_eq_true] at hv
    obtain ⟨⟨hv1, hv2⟩, hv3⟩ := hv
    have hn : validComp n := validCompB_iff.mp hv1
    have hq2 : ∀ c ∈ q ++ [n], validComp c := by
      intro c hc
      rcases List.mem_append.mp hc with h | h
      · exact hq c h
      · rcases List.mem_singleton.mp h with rfl; exact hn
    have h1 := walkA_spec t0 hs1 hs2 t (q ++ [n]) hq2 hv2
    have h2 := walkList_spec t0 hs1 hs2 rest q hq hv3
    simp only [walkList]
    rw [childPath hs1 hq hn, h1, h2]
    simp [specList]
end

mutual
/-- The file entries among the walk's output for a subtree at chain `q`
are exactly the subtree's files, named by their full relative chain.
(The root check can only skip a FILE at chain `[s]`, hence the
hypothesis; a skipped DIRECTORY loses only its marker, not its files.) -/
theorem specFiles_tree (s : GoStr) (t : FSTree) (q : List GoStr)
    (h0 : q ≠ []) (hfile : ∀ c, t = FSTree.file c → q ≠ [s]) :
    (specEntries s q t).filterMap fileView
      = (filesOfTree t).map (fun rc => (joinSlash (q ++ rc.1), rc.2)) := by
  cases t with
  | file c =>
    have hq : ¬(q = [] ∨ q = [s]) := by
      rintro (h | h)
      · exact h0 h
      · exact hfile c rfl h
    simp [specEntries, hq, filesOfTree, fileView]
  | dir cs =>
    have hlist := specFiles_list s cs q (Or.inl h0)
    by_cases hc : q = [] ∨ q = [s]
    · simp only [specEntries, if_pos hc, List.nil_append, filesOfTree]
      exact hlist
    · simp only [specEntries, if_neg hc, filesOfTree]
      rw [List.filterMap_append]
      simpa [fileView] using hlist

/-- The file entries among the walk's output for a child list. -/
theorem specFiles_list (s : GoStr) (cs : FSList) (q : List GoStr)
    (h : q ≠ [] ∨ noRootFileB s cs = true) :
    (specList s q cs).filterMap fileView
      = (filesOfList cs).map (fun rc => (joinSlash (q ++ rc.1), rc.2)) := by
  cases cs with
  | nil => simp [specList, filesOfList]
  | cons n t rest =>
    have hne : q ++ [n] ≠ [] := by simp
    have hfile : ∀ c, t = FSTree.file c → q ++ [n] ≠ [s] := by
      intro c htc heq
      rcases h with h | h
      · have hlen := congrArg List.length heq
        simp at hlen
        exact h hlen
      · rw [noRootFileB] at h
        simp only [Bool.and_eq_true] at h
        have hq0 : q = [] := by
          have hlen := congrArg List.length heq
          simp at hlen
          exact hlen
        have hns : n = s := by
          have := heq
          rw [hq0] at this
          simpa using this
        rw [if_pos hns, htc] at h
        exact absurd h.1 (by simp [FSTree.isDirB])
    have hrest : q ≠ [] ∨ noRootFileB s rest = true := by
      rcases h with h | h
      · exact Or.inl h
      · rw [noRootFileB] at h
        simp only [Bool.and_eq_true] at h
        exact Or.inr h.2
    have h1 := specFiles_tree s t (q ++ [n]) hne hfile
    have h2 := specFiles_list s rest q hrest
    simp only [specList, filesOfList, List.filterMap_append, h1, h2,
      List.map_append, List.map_map]
    congr 1
    apply List.map_congr_left
    intro rc _
    simp [List.append_assoc]
end

mutual
/-- Components of file chains in a valid subtree are valid. -/
theorem filesOfTree_comps (t : FSTree) (hv : validTreeB t = true) :
    ∀ rc ∈ filesOfTree t, ∀ c ∈ rc.1, validComp c := by
  cases t with
  | file c =>
    intro rc hrc
    simp only [filesOfTree, List.mem_singleton] at hrc
    subst hrc
    intro c hc
    simp at hc
  | dir cs =>
    intro rc hrc
    exact (filesOfList_shape cs (by simpa [validTreeB] using hv) rc hrc).2

/-- File chains below a valid child list are nonempty and valid. -/
theorem filesOfList_shape (cs : FSList) (hv : validChildrenB cs = true) :
    ∀ rc ∈ filesOfList cs, rc.1 ≠ [] ∧ ∀ c ∈ rc.1, validComp c := by
  cases cs with
  | nil => intro rc hrc; simp [filesOfList] at hrc
  | cons n t rest =>
    rw [validChildrenB] at hv
    simp only [Bool.and_eq_true] at hv
    obtain ⟨⟨hv1, hv2⟩, hv3⟩ := hv
    intro rc hrc
    simp only [filesOfList, List.mem_append, List.mem_map] at hrc
    rcases hrc with ⟨rc0, hrc0, hrceq⟩ | hrc
    · subst hrceq
      refine ⟨by simp, ?_⟩
      intro c hc
      rcases List.mem_cons.mp hc with h | h
      · exact h ▸ validCompB_iff.mp hv1
      · exact filesOfTree_comps t hv2 rc0 hrc0 c h
    · exact filesOfList_shape rest hv3 rc hrc
end

/-! ## Projection helpers for the error-free environments -/

theorem pureUEnv_open (k : Nat) : pureUEnv.openEntryErr k = none := rfl

theorem pureUEnv_create (p : GoStr) : pureUEnv.createErr p = none := rfl

theorem pureUEnv_copy (k : Nat) : pureUEnv.copyErr k = none := rfl

theorem applyMkdirAll_pure_files (st : FS) (p : GoStr) :
    (applyMkdirAll pureUEnv st p).files = st.files := rfl

/-! ## Extraction on well-formed containers -/

/-- Error-free extraction into a valid relative target directory: every
file entry whose name is a valid relative path lands at
`target ++ "/" ++ name` with its content, in container order; directory
markers only create directories. -/
theorem unarchiveLoop_pure {target : GoStr} {tq : List GoStr} (htq : tq ≠ [])
    (htv : ∀ c ∈ tq, validComp c) (hteq : target = joinSlash tq) :
    ∀ (es : List ZipEntry) (i : Nat) (st : FS),
      (∀ e ∈ es, e.isDir = false →
        ∃ r, r ≠ [] ∧ (∀ c ∈ r, validComp c) ∧ e.name = joinSlash r) →
      (unarchiveLoop pureUEnv target i es st).1.files
          = st.files ++ (es.filterMap fileView).map
              (fun nc => (target ++ '/' :: nc.1, nc.2))
        ∧ (unarchiveLoop pureUEnv target i es st).2 = .ok () := by
  intro es
  induction es with
  | nil => intro i st _; simp [unarchiveLoop]
  | cons e rest ih =>
    intro i st hE
    have htne : target ≠ [] := by
      rw [hteq]; exact joinSlash_ne_nil htq htv
    have hrestE : ∀ e' ∈ rest, e'.isDir = false →
        ∃ r, r ≠ [] ∧ (∀ c ∈ r, validComp c) ∧ e'.name = joinSlash r :=
      fun e' he' => hE e' (List.mem_cons_of_mem e he')
    by_cases hd : e.isDir
    · have hfv : fileView e = none := by simp [fileView, hd]
      simp only [unarchiveLoop, pureUEnv_open, hd, if_pos, List.filterMap_cons,
        hfv]
      refine ⟨?_, (ih (i + 1) _ hrestE).2⟩
      rw [(ih (i + 1) _ hrestE).1, applyMkdirAll_pure_files,
        applyMkdirAll_pure_files]
    · have hdf : e.isDir = false := Bool.of_not_eq_true hd
      obtain ⟨r, hr1, hr2, hr3⟩ := hE e (List.mem_cons_self e rest) hdf
      have hall : ∀ c ∈ tq ++ r, validComp c := by
        intro c hc
        rcases List.mem_append.mp hc with h | h
        · exact htv c h
        · exact hr2 c h
      have hpath : extPath target e = target ++ '/' :: e.name := by
        unfold extPath
        rw [if_neg htne, goJoin_pair e.name htne, hteq, hr3,
          ← joinSlash_append htq hr1, clean_joinSlash (by simp [htq]) hall]
      have hfv : fileView e = some (e.name, e.data) := by
        simp [fileView, hdf]
      simp only [unarchiveLoop, pureUEnv_open, pureUEnv_create, pureUEnv_copy,
        hdf, List.filterMap_cons, hfv, Bool.false_eq_true, if_false]
      refine ⟨?_, (ih (i + 1) _ hrestE).2⟩
      rw [(ih (i + 1) _ hrestE).1]
      simp only [applyMkdirAll_pure_files, hpath, List.map_cons]
      rw [List.append_assoc]
      rfl

/-! ## The error policy of the extraction loop -/

/-- The extraction loop succeeds exactly when, at every entry, `file.Open`
succeeds and (for file entries) `os.Create` and `io.Copy` succeed.  The
`os.MkdirAll` oracle does not occur in the condition: its failures are
ignored by the code and never abort the loop. -/
theorem unarchiveLoop_ok_iff (env : UEnv) (target : GoStr) :
    ∀ (es : List ZipEntry) (i : Nat) (st : FS),
      (unarchiveLoop env target i es st).2 = .ok ()
        ↔ ∀ j e, es.get? j = some e → stepOk env target (i + j) e := by
  intro es
  induction es with
  | nil =>
    intro i st
    simp [unarchiveLoop]
  | cons e rest ih =>
    intro i st
    have hshift :
        (∀ j e', rest.get? j = some e' → stepOk env target (i + 1 + j) e')
          ↔ ∀ j e', rest.get? j = some e' → stepOk env target (i + (j + 1)) e' := by
      constructor
      · intro h j e' hj
        have := h j e' hj
        rwa [show i + 1 + j = i + (j + 1) by omega] at this
      · intro h j e' hj
        have := h j e' hj
        rwa [show i + (j + 1) = i + 1 + j by omega] at this
    cases h0 : env.openEntryErr i with
    | some er =>
      simp only [unarchiveLoop, h0]
      constructor
      · intro h; simp at h
      · intro h
        have h00 := (h 0 e (by simp)).1
        rw [Nat.add_zero, h0] at h00
        cases h00
    | none =>
      by_cases hd : e.isDir
      · simp only [unarchiveLoop, h0, hd, eq_self_iff_true, if_true]
        rw [ih (i + 1) _]
        rw [hshift]
        constructor
        · intro h j e' hj
          cases j with
          | zero =>
            simp only [List.get?] at hj
            cases hj
            refine ⟨by rw [Nat.add_zero]; exact h0, ?_⟩
            intro hf
            rw [hd] at hf
            cases hf
          | succ j' => exact h j' e' hj
        · intro h j e' hj
          exact h (j + 1) e' hj
      · have hdf : e.isDir = false := Bool.of_not_eq_true hd
        cases hc : env.createErr (extPath target e) with
        | some er =>
          simp only [unarchiveLoop, h0, hdf, hc, Bool.false_eq_true, if_false]
          constructor
          · intro h; simp at h
          · intro h
            have h00 := ((h 0 e (by simp)).2 hdf).1
            rw [hc] at h00
            cases h00
        | none =>
          cases hcp : env.copyErr i with
          | some er =>
            simp only [unarchiveLoop, h0, hdf, hc, hcp, Bool.false_eq_true,
              if_false]
            constructor
            · intro h; simp at h
            · intro h
              have h00 := ((h 0 e (by simp)).2 hdf).2
              rw [Nat.add_zero, hcp] at h00
              cases h00
          | none =>
            simp only [unarchiveLoop, h0, hdf, hc, hcp, Bool.false_eq_true,
              if_false]
            rw [ih (i + 1) _]
            rw [hshift]
            constructor
            · intro h j e' hj
              cases j with
              | zero =>
                simp only [List.get?] at hj
                cases hj
                exact ⟨by rw [Nat.add_zero]; exact h0,
                  fun _ => ⟨hc, by rw [Nat.add_zero]; exact hcp⟩⟩
              | succ j' => exact h j' e' hj
            · intro h j e' hj
              exact h (j + 1) e' hj

/-! ## The root check guards every written name -/

/-- When the callback keeps an entry (returns a name), the pre-slash part
of that name differs from the base directory — provided a base directory
other than `"."` is set, so the root check of line 129 runs. -/
theorem nameOf_guard {baseDir path : GoStr} (hb1 : baseDir ≠ [])
    (hb2 : baseDir ≠ ['.']) {n : GoStr} {isDir : Bool}
    (h : nameOf baseDir path isDir = some n) :
    (if isDir then n.dropLast else n) ≠ baseDir := by
  unfold nameOf at h
  rw [if_pos hb1, if_neg hb2] at h
  by_cases hbn : baseDir = goJoin [trimPfx path (baseDir ++ ['/'])]
  · rw [if_pos hbn] at h
    cases h
  · rw [if_neg hbn] at h
    have hn : n = nameOf.withSlash (goJoin [trimPfx path (baseDir ++ ['/'])]) isDir :=
      (Option.some.inj h).symm
    cases isDir with
    | false =>
      simp only [nameOf.withSlash, Bool.false_eq_true, if_false] at hn
      simp only [Bool.false_eq_true, if_false]
      rw [hn]
      exact fun hcontra => hbn hcontra.symm
    | true =>
      simp only [nameOf.withSlash, eq_self_iff_true, if_true] at hn
      simp only [eq_self_iff_true, if_true]
      rw [hn, List.dropLast_concat]
      exact fun hcontra => hbn hcontra.symm

mutual
/-- Every entry the walk writes (under any environment) has a pre-slash
name different from the base directory, when the base directory is set
and is not `"."`. -/
theorem walkA_guard (env : AEnv) (baseDir path : GoStr) (t : FSTree)
    (hb1 : baseDir ≠ []) (hb2 : baseDir ≠ ['.']) :
    ∀ e ∈ (walkA env baseDir path t).1,
      (if e.isDir then e.name.dropLast else e.name) ≠ baseDir := by
  cases t with
  | file content =>
    intro e he
    simp only [walkA] at he
    cases hvis : env.visitErr path with
    | some er => rw [hvis] at he; simp at he
    | none =>
      rw [hvis] at he
      cases hname : nameOf baseDir path false with
      | none => rw [hname] at he; simp at he
      | some n =>
        rw [hname] at he
        have hg := nameOf_guard hb1 hb2 hname
        simp only [Bool.false_eq_true, if_false] at hg
        cases ho : env.openErr path with
        | some er =>
          rw [ho] at he
          simp at he
          rw [he]
          simpa using hg
        | none =>
          rw [ho] at he
          cases hcp : env.copyErr path with
          | some er =>
            rw [hcp] at he
            simp at he
            rw [he]
            simpa using hg
          | none =>
            rw [hcp] at he
            simp at he
            rw [he]
            simpa using hg
  | dir cs =>
    intro e he
    simp only [walkA] at he
    cases hvis : env.visitErr path with
    | some er => rw [hvis] at he; simp at he
    | none =>
      rw [hvis] at he
      cases hname : nameOf baseDir path true with
      | none =>
        rw [hname] at he
        exact walkList_guard env baseDir path cs hb1 hb2 e he
      | some n =>
        rw [hname] at he
        have hg := nameOf_guard hb1 hb2 hname
        simp only [eq_self_iff_true, if_true] at hg
        cases hwp : walkList env baseDir path cs with
        | mk es r =>
          rw [hwp] at he
          simp only [List.mem_cons] at he
          rcases he with he | he
          · rw [he]
            simpa using hg
          · exact walkList_guard env baseDir path cs hb1 hb2 e
              (by rw [hwp]; exact he)

/-- The walk over a child list writes no entry whose pre-slash name
equals the base directory. -/
theorem walkList_guard (env : AEnv) (baseDir path : GoStr) (cs : FSList)
    (hb1 : baseDir ≠ []) (hb2 : baseDir ≠ ['.']) :
    ∀ e ∈ (walkList env baseDir path cs).1,
      (if e.isDir then e.name.dropLast else e.name) ≠ baseDir := by
  cases cs with
  | nil => intro e he; simp [walkList] at he
  | cons n t rest =>
    intro e he
    simp only [walkList] at he
    cases hwp : walkA env baseDir (goJoin [path, n]) t with
    | mk es r =>
      rw [hwp] at he
      cases r with
      | some er =>
        simp at he
        exact walkA_guard env baseDir (goJoin [path, n]) t hb1 hb2 e
          (by rw [hwp]; exact he)
      | none =>
        cases hwl : walkList env baseDir path rest with
        | mk es2 r2 =>
          rw [hwl] at he
          simp only [List.mem_append] at he
          rcases he with he | he
          · exact walkA_guard env baseDir (goJoin [path, n]) t hb1 hb2 e
              (by rw [hwp]; exact he)
          · exact walkList_guard env baseDir path rest hb1 hb2 e
              (by rw [hwl]; exact he)
end

/-! ## From `createArchive` to the walk characterisation -/

theorem pureAEnv_createTarget (t : FSTree) :
    (pureAEnv t).createTargetErr = none := rfl

theorem pureAEnv_stat (t : FSTree) : (pureAEnv t).statSource = some t := rfl

/-- The container an error-free `createArchive` writes for a valid
directory at a single-component relative source path `s`: exactly the
`specList` entries (base name stripped from every name, root skipped). -/
theorem archivePure_spec (s : GoStr) (cs : FSList) (hs1 : validComp s)
    (hs2 : s ≠ ['.']) (hv : validChildrenB cs = true) :
    archivePure s (.dir cs) = specList s [] cs := by
  have hwalk := walkA_spec (FSTree.dir cs) hs1 hs2 (.dir cs) []
    (by intro c hc; simp at hc) (by simpa [validTreeB] using hv)
  rw [show joinSlash [s] = s from rfl] at hwalk
  unfold archivePure
  simp only [createArchive, pureAEnv_createTarget, pureAEnv_stat]
  simp only [FSTree.isDirB, if_true, goBase_single hs1.1 hs1.2.1, hwalk]
  simp [specEntries]

mutual
/-- Every entry the walk emits for a valid subtree is named by a
nonempty valid relative chain, with a trailing slash exactly on
directory markers. -/
theorem specShape_tree (s : GoStr) (t : FSTree) (q : List GoStr)
    (hq : ∀ c ∈ q, validComp c) (hv : validTreeB t = true) :
    ∀ e ∈ specEntries s q t, ∃ r, r ≠ [] ∧ (∀ c ∈ r, validComp c) ∧
      ((e.isDir = true ∧ e.name = joinSlash r ++ ['/'])
        ∨ (e.isDir = false ∧ e.name = joinSlash r)) := by
  cases t with
  | file c =>
    intro e he
    by_cases hc : q = [] ∨ q = [s]
    · simp [specEntries, hc] at he
    · simp only [specEntries, if_neg hc, List.mem_singleton] at he
      subst he
      exact ⟨q, fun h => hc (Or.inl h), hq, Or.inr ⟨rfl, rfl⟩⟩
  | dir cs =>
    intro e he
    have hvc : validChildrenB cs = true := by simpa [validTreeB] using hv
    by_cases hc : q = [] ∨ q = [s]
    · simp only [specEntries, if_pos hc, List.nil_append] at he
      exact specShape_list s cs q hq hvc e he
    · simp only [specEntries, if_neg hc, List.cons_append, List.nil_append,
        List.mem_cons] at he
      rcases he with he | he
      · subst he
        exact ⟨q, fun h => hc (Or.inl h), hq, Or.inl ⟨rfl, rfl⟩⟩
      · exact specShape_list s cs q hq hvc e he

/-- Entry shape for the children of the node at chain `q`. -/
theorem specShape_list (s : GoStr) (cs : FSList) (q : List GoStr)
    (hq : ∀ c ∈ q, validComp c) (hv : validChildrenB cs = true) :
    ∀ e ∈ specList s q cs, ∃ r, r ≠ [] ∧ (∀ c ∈ r, validComp c) ∧
      ((e.isDir = true ∧ e.name = joinSlash r ++ ['/'])
        ∨ (e.isDir = false ∧ e.name = joinSlash r)) := by
  cases cs with
  | nil => intro e he; simp [specList] at he
  | cons n t rest =>
    rw [validChildrenB] at hv
    simp only [Bool.and_eq_true] at hv
    obtain ⟨⟨hv1, hv2⟩, hv3⟩ := hv
    have hq2 : ∀ c ∈ q ++ [n], validComp c := by
      intro c hc
      rcases List.mem_append.mp hc with h | h
      · exact hq c h
      · rcases List.mem_singleton.mp h with rfl
        exact validCompB_iff.mp hv1
    intro e he
    simp only [specList, List.mem_append] at he
    rcases he with he | he
    · exact specShape_tree s t (q ++ [n]) hq2 hv2 e he
    · exact specShape_list s rest q hq hv3 e he
end

/-! ## Claims -/

/-- C2 (amended): archiving the directory `a` containing the single file
`b.txt` with content `"hello"` (source path `"a"`) produces a container
with exactly ONE entry: a deflate-compressed file entry named `"b.txt"`
(the base-directory prefix is stripped by `TrimPrefix` and the root
directory entry is skipped by the root check) whose decompressed content
is `"hello"`. -/
theorem C2_single_file_scenario_amended :
    archivePure (gs "a") exTree
      = [⟨gs "b.txt", false, zipDeflate, helloBytes⟩] := rfl

/-- C2 (counterexample): the claim as stated is false — the container
produced for the `a/b.txt` scenario does not hold the two entries `a/`
and `a/b.txt`; it holds the single entry `b.txt`, and in particular no
directory marker `a/` is ever written. -/
theorem C2_single_file_scenario_counterexample :
    (archivePure (gs "a") exTree).map ZipEntry.name = [gs "b.txt"]
    ∧ (archivePure (gs "a") exTree).map ZipEntry.name ≠ [gs "a/", gs "a/b.txt"]
    ∧ ∀ e ∈ archivePure (gs "a") exTree, e.name ≠ gs "a/" :=
  ⟨rfl, by decide, by decide⟩

/-- C4: archiving directory `a` holding `b.txt` and `c.txt` where
`os.Open("a/b.txt")` fails: the walk aborts at once (its result carries
the I/O error, and `c.txt` is never written), but `createArchive`
discards `filepath.Walk`'s return value (line 105) and reports success —
the error never reaches the caller, contradicting the claim. -/
theorem C4_walk_error_dropped :
    (createArchive envC4 (gs "a") (gs "t.zip")).result = .ok ()
    ∧ (createArchive envC4 (gs "a") (gs "t.zip")).walkErr = some .ioError
    ∧ ((createArchive envC4 (gs "a") (gs "t.zip")).written.getD []).map
        ZipEntry.name = [gs "b.txt"] :=
  ⟨rfl, rfl, rfl⟩

/-- C6: when the source path does not exist (and the container file at
`target` can itself be created), `createArchive` returns the stat error —
`NotFound` — and the container written at `target` holds no entries
(`os.Create` ran before the stat; the deferred closes flush an empty
container). -/
theorem C6_notfound (env : AEnv) (source target : GoStr)
    (h1 : env.createTargetErr = none) (h2 : env.statSource = none) :
    (createArchive env source target).result = .error .notFound
    ∧ (createArchive env source target).written = some [] := by
  simp [createArchive, h1, h2]

/-- C6 (witness): concrete run on a nonexistent source. -/
theorem C6_notfound_witness :
    envC6.createTargetErr = none ∧ envC6.statSource = none
    ∧ ((createArchive envC6 (gs "missing") (gs "t.zip")).result
          = .error .notFound
      ∧ (createArchive envC6 (gs "missing") (gs "t.zip")).written = some []) :=
  ⟨rfl, rfl, C6_notfound envC6 (gs "missing") (gs "t.zip") rfl rfl⟩

/-- C7: `Archive` with an empty `source` or an empty `target` returns an
`InvalidArgument` error before any filesystem operation — no container
file is created (`written = none`) and no walk runs (`walkErr = none`). -/
theorem C7_empty_args (env : AEnv) (source target : GoStr)
    (h : source = [] ∨ target = []) :
    Archive env source target = ⟨.error .invalidArgument, none, none⟩ := by
  by_cases ht : target = []
  · simp [Archive, ht]
  · rcases h with h | h
    · simp [Archive, ht, h]
    · exact absurd h ht

/-- C7 (witness): concrete call with an empty source. -/
theorem C7_empty_args_witness :
    ((gs "" : GoStr) = [] ∨ (gs "t.zip" : GoStr) = [])
    ∧ Archive envC6 (gs "") (gs "t.zip")
        = ⟨.error .invalidArgument, none, none⟩ :=
  ⟨Or.inl rfl, C7_empty_args envC6 (gs "") (gs "t.zip") (Or.inl rfl)⟩

/-- C9 (amended): `Download` rejects a source that fails absolute-URI
parsing (`url.ParseRequestURI`) with `InvalidArgument` before creating
the target file; a source that parses but whose scheme is not
`http`/`https` passes that validation and instead fails inside
`http.Get` ("unsupported protocol scheme", a `NetworkError`), still
before the target file is created. -/
theorem C9_download_validation_amended (env : DEnv) (source target : GoStr) :
    (parseRequestURIOk source = false →
      Download env source target = ⟨.error .invalidArgument, none⟩)
    ∧ (∀ sch, getScheme source = some sch → lowerStr sch ≠ gs "http" →
        lowerStr sch ≠ gs "https" →
        Download env source target = ⟨.error .networkError, none⟩) := by
  constructor
  · intro h
    simp [Download, h]
  · intro sch hsch h1 h2
    have hok : parseRequestURIOk source = true := by
      simp [parseRequestURIOk, hsch]
    simp [Download, hok, hsch, h1, h2]

/-- C9 (witness): `"not-a-url"` is rejected as `InvalidArgument`;
`"ftp://example.com/a.zip"` has scheme `ftp` and is rejected at the GET
stage; neither creates the output file. -/
theorem C9_download_validation_witness :
    (parseRequestURIOk (gs "not-a-url") = false
      ∧ Download (pureDEnv [1]) (gs "not-a-url") (gs "/tmp/out.zip")
          = ⟨.error .invalidArgument, none⟩)
    ∧ (getScheme (gs "ftp://example.com/a.zip") = some (gs "ftp")
      ∧ Download (pureDEnv [1]) (gs "ftp://example.com/a.zip")
          (gs "/tmp/out.zip") = ⟨.error .networkError, none⟩) :=
  ⟨⟨by decide,
    (C9_download_validation_amended (pureDEnv [1]) (gs "not-a-url")
      (gs "/tmp/out.zip")).1 (by decide)⟩,
   ⟨by decide,
    (C9_download_validation_amended (pureDEnv [1])
      (gs "ftp://example.com/a.zip") (gs "/tmp/out.zip")).2 (gs "ftp")
      (by decide) (by decide) (by decide)⟩⟩

/-- C9 (counterexample): the claim as stated is false — a syntactically
valid non-HTTP(S) source (`ftp://...`) is rejected with a network-layer
error, not `InvalidArgument`, and a rooted path such as `/tmp/out.zip`
even passes `ParseRequestURI` validation. -/
theorem C9_download_counterexample :
    Download (pureDEnv [1]) (gs "ftp://example.com/a.zip") (gs "/tmp/out.zip")
      = ⟨.error .networkError, none⟩
    ∧ Err.networkError ≠ Err.invalidArgument
    ∧ parseRequestURIOk (gs "/tmp/out.zip") = true :=
  ⟨rfl, by decide, by decide⟩

/-- C10: `Unarchive` joins the target directory with the stored entry
name with no sanitization, so the entry named `../evil.txt` extracted
into target `out` is created at `evil.txt` — outside the target
directory (`out/` is not a prefix of the extraction path). -/
theorem C10_zipslip :
    extPath (gs "out") evilEntry = gs "evil.txt"
    ∧ (Unarchive pureUEnv [evilEntry] (gs "out")).1.files
        = [(gs "evil.txt", [42])]
    ∧ (gs "out/").isPrefixOf (gs "evil.txt") = false :=
  ⟨rfl, rfl, by decide⟩

/-- C3 (amended): when the source path is a single valid path component
(so it equals its own base name and is not `"."`), every entry written
for a valid directory tree has a nonempty relative name with no leading
separator, and every directory entry's name ends with a trailing slash. -/
theorem C3_relative_names_amended (s : GoStr) (cs : FSList) (e : ZipEntry)
    (h1 : validCompB s = true) (h2 : s ≠ gs ".")
    (hv : validChildrenB cs = true)
    (he : e ∈ archivePure s (.dir cs)) :
    e.name ≠ [] ∧ e.name.head? ≠ some '/'
    ∧ (e.isDir = true → e.name.getLast? = some '/') := by
  have hs1 : validComp s := validCompB_iff.mp h1
  rw [archivePure_spec s cs hs1 h2 hv] at he
  obtain ⟨r, hr1, hr2, hshape⟩ := specShape_list s cs []
    (by intro c hc; simp at hc) hv e he
  have hjne : joinSlash r ≠ [] := joinSlash_ne_nil hr1 hr2
  obtain ⟨c0, rest0, h0⟩ : ∃ c0 rest0, joinSlash r = c0 :: rest0 := by
    cases h : joinSlash r with
    | nil => exact absurd h hjne
    | cons c0 rest0 => exact ⟨c0, rest0, rfl⟩
  have hc0 : c0 ≠ '/' := joinSlash_head hr1 hr2 c0 (by rw [h0]; rfl)
  rcases hshape with ⟨hd, hn⟩ | ⟨hd, hn⟩
  · refine ⟨by rw [hn]; simp, ?_, fun _ => by rw [hn]; exact List.getLast?_concat _⟩
    rw [hn, h0]
    intro hcontra
    exact hc0 (Option.some.inj hcontra)
  · refine ⟨by rw [hn]; exact hjne, ?_, fun hcontra => by rw [hd] at hcontra; cases hcontra⟩
    rw [hn, h0]
    intro hcontra
    exact hc0 (Option.some.inj hcontra)

/-- C3 (witness): the single file entry of the `a/b.txt` scenario has a
relative name. -/
theorem C3_relative_names_witness :
    validCompB (gs "a") = true ∧ (gs "a" : GoStr) ≠ gs "."
    ∧ validChildrenB exChildren = true
    ∧ (⟨gs "b.txt", false, zipDeflate, helloBytes⟩ : ZipEntry)
        ∈ archivePure (gs "a") (.dir exChildren)
    ∧ ((⟨gs "b.txt", false, zipDeflate, helloBytes⟩ : ZipEntry).name ≠ []
      ∧ (⟨gs "b.txt", false, zipDeflate, helloBytes⟩ : ZipEntry).name.head?
          ≠ some '/'
      ∧ ((⟨gs "b.txt", false, zipDeflate, helloBytes⟩ : ZipEntry).isDir = true →
          (⟨gs "b.txt", false, zipDeflate, helloBytes⟩ : ZipEntry).name.getLast?
            = some '/')) :=
  ⟨by decide, by decide, by decide, by decide,
    C3_relative_names_amended (gs "a") exChildren _
      (by decide) (by decide) (by decide) (by decide)⟩

/-- C3 (counterexample): the claim as stated is false for an absolute
source path — archiving `/tmp/a` writes the entry `/tmp/a/`, whose name
begins with the separator (the `TrimPrefix` with prefix `a/` never
matches an absolute visited path). -/
theorem C3_relative_names_counterexample :
    (⟨gs "/tmp/a/", true, 0, []⟩ : ZipEntry)
      ∈ archivePure (gs "/tmp/a") (.dir exChildren)
    ∧ (gs "/tmp/a/").head? = some '/' :=
  ⟨by decide, rfl⟩

/-- C5 (amended): when the source is a directory and its base name is
not `"."`, no entry the container receives has a pre-slash name equal to
the base directory name — the root check skips exactly those visits, so
no bare root entry is ever written. -/
theorem C5_root_skip_amended (env : AEnv) (source target : GoStr)
    (t : FSTree) (e : ZipEntry) (hstat : env.statSource = some t)
    (hdir : t.isDirB = true) (hb : goBase source ≠ gs ".")
    (he : e ∈ (createArchive env source target).written.getD []) :
    (if e.isDir then e.name.dropLast else e.name) ≠ goBase source := by
  cases hct : env.createTargetErr with
  | some er =>
    simp only [createArchive, hct] at he
    simp at he
  | none =>
    simp only [createArchive, hct, hstat, hdir, eq_self_iff_true, if_true] at he
    cases hw : walkA env (goBase source) source t with
    | mk es r =>
      rw [hw] at he
      simp at he
      exact walkA_guard env (goBase source) source t (goBase_ne_nil source)
        hb e (by rw [hw]; exact he)

/-- C5 (witness): the file entry of the `a/b.txt` scenario is not a bare
root entry. -/
theorem C5_root_skip_witness :
    (pureAEnv (.dir exChildren)).statSource = some (.dir exChildren)
    ∧ (FSTree.dir exChildren).isDirB = true
    ∧ goBase (gs "a") ≠ gs "."
    ∧ (⟨gs "b.txt", false, zipDeflate, helloBytes⟩ : ZipEntry)
        ∈ (createArchive (pureAEnv (.dir exChildren)) (gs "a")
            (gs "t.zip")).written.getD []
    ∧ (if (⟨gs "b.txt", false, zipDeflate, helloBytes⟩ : ZipEntry).isDir
        then (⟨gs "b.txt", false, zipDeflate, helloBytes⟩ : ZipEntry).name.dropLast
        else (⟨gs "b.txt", false, zipDeflate, helloBytes⟩ : ZipEntry).name)
        ≠ goBase (gs "a") :=
  ⟨rfl, rfl, by decide, by decide,
    C5_root_skip_amended (pureAEnv (.dir exChildren)) (gs "a") (gs "t.zip")
      (.dir exChildren) _ rfl rfl (by decide) (by decide)⟩

/-- C5 (counterexample): the claim as stated is false for source `"."` —
the base directory is `"."`, the root check does not run in that branch,
and the root visit is written as the entry `./`, whose pre-slash name
equals the base directory name. -/
theorem C5_root_skip_counterexample :
    (⟨gs "./", true, 0, []⟩ : ZipEntry) ∈ archivePure (gs ".") (.dir exChildren)
    ∧ (if (⟨gs "./", true, 0, []⟩ : ZipEntry).isDir
        then (⟨gs "./", true, 0, []⟩ : ZipEntry).name.dropLast
        else (⟨gs "./", true, 0, []⟩ : ZipEntry).name) = goBase (gs ".") :=
  ⟨by decide, by decide⟩

/-- C8 (amended): extraction succeeds exactly when every entry's
`file.Open` succeeds and, for file entries, so do `os.Create` and
`io.Copy`; the first such failure aborts the loop and is returned.
Failures of the directory-creation calls (`os.MkdirAll`) are ignored —
they never abort extraction and never surface (the success condition
does not mention the `mkdirErr` oracle at all). -/
theorem C8_error_policy_amended (env : UEnv) (target : GoStr)
    (es : List ZipEntry) :
    (Unarchive env es target).2 = .ok () ↔ allStepsOk env target es := by
  have h := unarchiveLoop_ok_iff env target es 0 FS.empty
  simp only [Nat.zero_add] at h
  exact h

/-- C8 (counterexample): the claim as stated is false — extracting a
single directory-marker entry where `os.MkdirAll("t/d")` fails with an
I/O error still returns success, and the directory is indeed missing
(only the parent `t` was created). -/
theorem C8_mkdir_ignored_counterexample :
    envC8.mkdirErr (gs "t/d") = some .ioError
    ∧ (Unarchive envC8 [dirEntryD] (gs "t")).2 = .ok ()
    ∧ (Unarchive envC8 [dirEntryD] (gs "t")).1.dirs = [gs "t"] :=
  ⟨rfl, rfl, rfl⟩

/-- C1 (amended): for a source path that is a single valid component `s`
(not `"."`), a valid directory tree none of whose direct children is a
FILE named `s`, and a fresh target that is a valid relative path,
extracting the archived container reproduces exactly the source
directory's files — each file with relative chain `rc` lands at
`target/<relative path>` with identical bytes.  (The base directory
level itself is dropped by the writer, so the files sit directly under
`target`, and directory markers only create directories.) -/
theorem C1_round_trip_amended (s target : GoStr) (cs : FSList)
    (h1 : validCompB s = true) (h2 : s ≠ gs ".")
    (hv : validChildrenB cs = true) (hroot : noRootFileB s cs = true)
    (ht : validRelPathB target = true) :
    (Unarchive pureUEnv (archivePure s (.dir cs)) target).2 = .ok ()
    ∧ (Unarchive pureUEnv (archivePure s (.dir cs)) target).1.files
        = (filesOfList cs).map
            (fun rc => (target ++ '/' :: joinSlash rc.1, rc.2)) := by
  have hs1 : validComp s := validCompB_iff.mp h1
  have harch := archivePure_spec s cs hs1 h2 hv
  rw [validRelPathB] at ht
  simp only [Bool.and_eq_true] at ht
  obtain ⟨ht1, ht2⟩ := ht
  have htq : splitSlash target ≠ [] := splitSlash_ne_nil target
  have hcomp : ∀ c ∈ splitSlash target, validComp c :=
    fun c hc => validCompB_iff.mp (List.all_eq_true.mp ht2 c hc)
  have hteq : target = joinSlash (splitSlash target) :=
    (joinSlash_splitSlash target).symm
  have hfiles := specFiles_list s cs [] (Or.inr hroot)
  simp only [List.nil_append] at hfiles
  have hE : ∀ e ∈ archivePure s (.dir cs), e.isDir = false →
      ∃ r, r ≠ [] ∧ (∀ c ∈ r, validComp c) ∧ e.name = joinSlash r := by
    intro e he hdf
    rw [harch] at he
    have hmem : (e.name, e.data) ∈ (specList s [] cs).filterMap fileView :=
      List.mem_filterMap.mpr ⟨e, he, by simp [fileView, hdf]⟩
    rw [hfiles] at hmem
    obtain ⟨rc, hrc, heq⟩ := List.mem_map.mp hmem
    obtain ⟨hne, hcomps⟩ := filesOfList_shape cs hv rc hrc
    exact ⟨rc.1, hne, hcomps, (congrArg Prod.fst heq).symm⟩
  obtain ⟨hu1, hu2⟩ := unarchiveLoop_pure htq hcomp hteq
    (archivePure s (.dir cs)) 0 FS.empty hE
  refine ⟨hu2, ?_⟩
  have hdef : Unarchive pureUEnv (archivePure s (.dir cs)) target
      = unarchiveLoop pureUEnv target 0 (archivePure s (.dir cs)) FS.empty := rfl
  rw [hdef, hu1, harch, hfiles]
  simp only [List.map_map]
  rfl

/-- C1 (witness): the `a/b.txt` scenario round-trips into target `out`:
extraction succeeds and yields exactly `out/b.txt` with content
`"hello"`. -/
theorem C1_round_trip_witness :
    validCompB (gs "a") = true ∧ (gs "a" : GoStr) ≠ gs "."
    ∧ validChildrenB exChildren = true
    ∧ noRootFileB (gs "a") exChildren = true
    ∧ validRelPathB (gs "out") = true
    ∧ ((Unarchive pureUEnv (archivePure (gs "a") (.dir exChildren))
          (gs "out")).2 = .ok ()
      ∧ (Unarchive pureUEnv (archivePure (gs "a") (.dir exChildren))
          (gs "out")).1.files
          = (filesOfList exChildren).map
              (fun rc => (gs "out" ++ '/' :: joinSlash rc.1, rc.2))) :=
  ⟨by decide, by decide, by decide, by decide, by decide,
    C1_round_trip_amended (gs "a") (gs "out") exChildren
      (by decide) (by decide) (by decide) (by decide) (by decide)⟩

/-- C1 (counterexample): the claim as stated is false for an absolute
source path — archiving `/tmp/a` (tree `b.txt = "hello"`) and extracting
into `out` puts the file at `out/tmp/a/b.txt`, not at `out/b.txt`, so
the extracted relative file set differs from the source tree's. -/
theorem C1_round_trip_counterexample :
    (Unarchive pureUEnv (archivePure (gs "/tmp/a") (.dir exChildren))
        (gs "out")).1.files = [(gs "out/tmp/a/b.txt", helloBytes)]
    ∧ (filesOfList exChildren).map
        (fun rc => (gs "out" ++ '/' :: joinSlash rc.1, rc.2))
        = [(gs "out/b.txt", helloBytes)]
    ∧ (gs "out/tmp/a/b.txt" : GoStr) ≠ gs "out/b.txt" :=
  ⟨rfl, rfl, by decide⟩

end Gogo
